import Mathlib

/-!
Shallow embedding of the mdserve markdown server (src/src/app.rs) and proofs
about its file-tracking, change-classification, scanning and serving logic.

Modelling conventions, applied throughout:
* Rust `String` keys and paths become Lean `String`s; paths handled
  component-wise in the scanner are `List String` (one element per component).
* `SystemTime` modification times become `Nat`.
* `md5::Digest` is modelled as a wrapper around the hashed content itself:
  the code only ever compares digests for equality, and `md5::compute` is
  injective on the inputs appearing in any run up to hash collisions, which
  the code itself ignores.
* The external markdown renderer (`markdown::to_html_with_options`, spec §6
  "Renderer") is threaded through as an explicit function argument `render`.
* Fallible filesystem calls (`fs::metadata`, `fs::read_to_string`,
  `Path::canonicalize`) become `Option`-valued fields of an explicit
  filesystem record; `anyhow::Result` becomes `Except Unit`.
* `HashMap<String, TrackedFile>` becomes an association list
  `List (String × TrackedFile)`; `HashSet<String>` becomes a `List String`
  compared and diffed up to membership, matching set semantics.
-/

namespace Mdserve

/-- Model of `md5::Digest`: the code only compares digests for equality,
so we model the digest of a string as the string itself. -/
structure Digest where
  val : String
deriving DecidableEq, Repr

/-- Model of `md5::compute`. -/
def md5_compute (content : String) : Digest := ⟨content⟩

/-- `ServerMessage` from app.rs lines 52-59: the server→client wire message
union. Its variants are exactly `Reload`, `Pong`, `FileRenamed`,
`FileRemoved`. -/
inductive ServerMessage where
  | Reload
  | Pong
  | FileRenamed (old_name new_name : String)
  | FileRemoved (name : String)
deriving DecidableEq, Repr

/-- `TrackedFile` from app.rs lines 113-120. -/
structure TrackedFile where
  path : String
  relative_path : String
  last_modified : Nat
  html : String
  content_hash : Digest
deriving DecidableEq, Repr

/-- `FileChangeType` from app.rs lines 452-456. -/
inductive FileChangeType where
  | Renamed (old_name new_name : String)
  | Removed (name : String)
  | Other
deriving DecidableEq, Repr

/-- Association-list lookup, modelling `HashMap::get`. -/
def alistGet {α : Type} : List (String × α) → String → Option α
  | [], _ => none
  | kv :: rest, k => if kv.1 = k then some kv.2 else alistGet rest k

/-- Membership test, modelling `HashSet::contains` / `HashMap::contains_key`. -/
def memKey {α : Type} (m : List (String × α)) (k : String) : Bool :=
  (alistGet m k).isSome

/-- `detect_file_change` from app.rs lines 458-491.  Set difference of the
`HashSet`s is modelled by `List.filter` over membership; the slice patterns
`([new_name], [old_name])` match exactly the singleton-difference case.
When the 1-added/1-removed pattern matches but the digest comparison fails
(or either lookup misses), control falls through to the removal check, just
as in the source. -/
def detect_file_change
    (old_files new_files : List String)
    (old_tracked_files : List (String × Digest))
    (new_tracked_files : List (String × TrackedFile)) : FileChangeType :=
  let added := new_files.filter (fun k => !(old_files.contains k))
  let removed := old_files.filter (fun k => !(new_files.contains k))
  let rename? : Option FileChangeType :=
    match added, removed with
    | [new_name], [old_name] =>
      match alistGet old_tracked_files old_name, alistGet new_tracked_files new_name with
      | some old_hash, some new_file =>
        if old_hash = new_file.content_hash then
          some (.Renamed old_name new_name)
        else
          none
      | _, _ => none
    | _, _ => none
  match rename? with
  | some c => c
  | none =>
    match removed with
    | first_removed :: _ => .Removed first_removed
    | [] => .Other

/-- `send_change_message` from app.rs lines 493-506: maps the classified
change to the wire message broadcast on the change bus. -/
def send_change_message (change_type : FileChangeType) : ServerMessage :=
  match change_type with
  | .Renamed old_name new_name => .FileRenamed old_name new_name
  | .Removed name => .FileRemoved name
  | .Other => .Reload

/-- `notify::event::RenameMode` variants matched in `handle_rename_event`. -/
inductive RenameMode where
  | Both
  | To
  | From
  | Any
  | Other
deriving DecidableEq, Repr

/-- State of the debounce scheduler: the number of delayed-rescan timer
tasks currently pending (spawned, sleep not yet elapsed).  `tokio::spawn`
creates an independent task, so spawning is modelled as incrementing this
count; nothing in the source records or checks an already-armed timer. -/
structure SchedulerState where
  pendingRescans : Nat
deriving DecidableEq, Repr

/-- `schedule_delayed_rescan` from app.rs lines 539-545: unconditionally
spawns a new task that sleeps `RESCAN_DELAY_MS` and then reconciles.  There
is no lookup of an existing timer — each call arms a fresh one. -/
def schedule_delayed_rescan (s : SchedulerState) : SchedulerState :=
  { pendingRescans := s.pendingRescans + 1 }

/-- Timer-relevant behaviour of `handle_rename_event` from app.rs lines
547-578: in directory mode every rename-class event calls
`schedule_delayed_rescan` and returns; in single-file mode the event is
handled immediately (per-mode dispatch on the rename sub-kind) and no timer
is armed. -/
def handle_rename_event_timers
    (mode : RenameMode) (is_directory_mode : Bool) (s : SchedulerState) : SchedulerState :=
  if is_directory_mode then
    schedule_delayed_rescan s
  else
    match mode with
    | _ => s

/-! ### String and path comparison

Rust compares `String`s by bytes and `PathBuf`s component-wise; on UTF-8
data byte order coincides with code-point order, so both are modelled as
lexicographic comparisons over `List Char` (one string) resp.
`List String` (one path component per element). -/

/-- Strict lexicographic order on character lists (Rust `str` `Ord`). -/
def strListLt : List Char → List Char → Bool
  | [], [] => false
  | [], _ :: _ => true
  | _ :: _, [] => false
  | a :: as, b :: bs => if a = b then strListLt as bs else decide (a < b)

/-- Non-strict lexicographic order on character lists. -/
def strListLe : List Char → List Char → Bool
  | [], _ => true
  | _ :: _, [] => false
  | a :: as, b :: bs => if a = b then strListLe as bs else decide (a < b)

/-- Non-strict lexicographic order on strings (Rust `String` `Ord`),
as used by `filenames.sort()` in `get_sorted_filenames`. -/
def strLe (a b : String) : Bool := strListLe a.data b.data

/-- Lexicographic order on component paths (Rust `PathBuf` `Ord`:
component-wise, each component by byte order), as used by
`md_files.sort()` in `scan_markdown_files`. -/
def pathLe : List String → List String → Bool
  | [], _ => true
  | _ :: _, [] => false
  | a :: as, b :: bs => if a.data = b.data then pathLe as bs else strListLt a.data b.data

/-- One step of insertion sort. -/
def insertSorted {α : Type} (le : α → α → Bool) (x : α) : List α → List α
  | [] => [x]
  | y :: ys => if le x y then x :: y :: ys else y :: insertSorted le x ys

/-- Insertion sort; models `Vec::sort` (a stable sort producing the
ascending permutation of its input for the given total order). -/
def sortListBy {α : Type} (le : α → α → Bool) : List α → List α
  | [] => []
  | x :: xs => insertSorted le x (sortListBy le xs)

/-! ### File names, extensions and the extension predicates -/

/-- The final path component (Rust `Path::file_name`, for paths that do not
end in a separator). -/
def fileNameOf (p : List Char) : List Char :=
  ((p.reverse).takeWhile (fun c => c != '/')).reverse

/-- The extension of a file name (Rust `Path::extension`): the part after
the last `.`, and `none` when there is no `.` or when everything before
the last `.` is empty (e.g. `.gitignore`). -/
def extensionOf (name : List Char) : Option (List Char) :=
  let rev := name.reverse
  let after := rev.takeWhile (fun c => c != '.')
  if after.length = rev.length then none
  else if rev.drop (after.length + 1) = [] then none
  else some after.reverse

/-- ASCII lower-casing of one character. -/
def asciiLowerChar (c : Char) : Char :=
  if 65 ≤ c.toNat ∧ c.toNat ≤ 90 then Char.ofNat (c.toNat + 32) else c

/-- Rust `str::eq_ignore_ascii_case`. -/
def eqIgnoreAsciiCase (a b : List Char) : Bool :=
  decide (a.map asciiLowerChar = b.map asciiLowerChar)

/-- `is_markdown_file` from app.rs lines 86-91: the extension matches
`md` or `markdown` case-insensitively. -/
def is_markdown_file (path : String) : Bool :=
  match extensionOf (fileNameOf path.data) with
  | some ext => eqIgnoreAsciiCase ext "md".data || eqIgnoreAsciiCase ext "markdown".data
  | none => false

/-- `is_image_file` from app.rs lines 918-928. -/
def is_image_file (file_path : String) : Bool :=
  let ext := ((extensionOf (fileNameOf file_path.data)).getD []).map asciiLowerChar
  decide (ext = "png".data) || decide (ext = "jpg".data) || decide (ext = "jpeg".data) ||
    decide (ext = "gif".data) || decide (ext = "svg".data) || decide (ext = "webp".data) ||
    decide (ext = "bmp".data) || decide (ext = "ico".data)

/-- `guess_image_content_type` from app.rs lines 930-947. -/
def guess_image_content_type (file_path : String) : String :=
  let ext := ((extensionOf (fileNameOf file_path.data)).getD []).map asciiLowerChar
  if ext = "png".data then "image/png"
  else if ext = "jpg".data ∨ ext = "jpeg".data then "image/jpeg"
  else if ext = "gif".data then "image/gif"
  else if ext = "svg".data then "image/svg+xml"
  else if ext = "webp".data then "image/webp"
  else if ext = "bmp".data then "image/bmp"
  else if ext = "ico".data then "image/x-icon"
  else "application/octet-stream"

/-! ### The renderer and the tracked-file index -/

/-- Left-to-right non-overlapping replacement of `pat` by `repl`
(Rust `str::replace`), fuelled by the input length so that the recursion
is structural; each step consumes at least one character, so fuel equal to
the input length always suffices. -/
def replaceGo (pat repl : List Char) : Nat → List Char → List Char
  | _, [] => []
  | 0, l => l
  | fuel + 1, c :: rest =>
    if pat ≠ [] ∧ pat.isPrefixOf (c :: rest) then
      repl ++ replaceGo pat repl fuel (rest.drop (pat.length - 1))
    else
      c :: replaceGo pat repl fuel rest

/-- Rust `str::replace`. -/
def string_replace (s pat repl : String) : String :=
  ⟨replaceGo pat.data repl.data s.data.length s.data⟩

/-- `MarkdownState::wrap_tables_for_scroll` from app.rs lines 419-423. -/
def wrap_tables_for_scroll (html : String) : String :=
  string_replace (string_replace html "<table>" "<div class=\"table-wrapper\"><table>")
    "</table>" "</table></div>"

/-- `MarkdownState::markdown_to_html` from app.rs lines 405-417.  The gfm
conversion itself is the external Renderer collaborator (spec §6) and is
passed in as `render`; it never fails (parse errors already yield a
placeholder string inside the renderer, per `unwrap_or_else`), so the
`Result` wrapper of the source is dropped. -/
def markdown_to_html (render : String → String) (content : String) : String :=
  wrap_tables_for_scroll (render content)

/-- The filesystem as seen through the per-file calls of the source:
`Path::canonicalize`, `fs::metadata(..).modified()` and
`fs::read_to_string` / `fs::read`, each of which may fail (`none`). -/
structure FileSys where
  canon : String → Option String
  mtime : String → Option Nat
  content : String → Option String

/-- `MarkdownState` from app.rs lines 131-136.  The broadcast channel
`change_tx` is not part of the value state; functions that send on it
return the sent messages instead. -/
structure MarkdownState where
  base_dir : String
  tracked_files : List (String × TrackedFile)
  is_directory_mode : Bool
deriving DecidableEq, Repr

/-- In-place update of the entry at a key (`HashMap::get_mut` mutation). -/
def alistUpdate {α : Type} (m : List (String × α)) (k : String) (v : α) :
    List (String × α) :=
  m.map (fun kv => if kv.1 = k then (k, v) else kv)

/-- `Path::strip_prefix` for string paths: removes `base` and the
following separator, component-wise (no partial-component matches). -/
def stripPathPrefixStr (base p : String) : Option String :=
  if p.data = base.data then some ""
  else if (base.data ++ ['/']).isPrefixOf p.data then
    some ⟨p.data.drop (base.data.length + 1)⟩
  else none

/-- `calculate_relative_path` from app.rs lines 94-102: canonicalize, then
strip the base directory; `anyhow::Result` becomes `Option`. -/
def calculate_relative_path (fs : FileSys) (file_path base_dir : String) : Option String :=
  match fs.canon file_path with
  | some canonical => stripPathPrefixStr base_dir canonical
  | none => none

/-- `MarkdownState::refresh_file` from app.rs lines 287-300.  Returns the
new state and whether the call returned `Ok` (errors leave the state
untouched, because the source mutates only after both filesystem calls
succeeded).  Note that the source rereads content and recomputes `html`
and `last_modified` when the current mtime is strictly newer, but does
not touch `content_hash`. -/
def refresh_file (render : String → String) (fs : FileSys) (st : MarkdownState)
    (relative_path : String) : MarkdownState × Bool :=
  match alistGet st.tracked_files relative_path with
  | none => (st, true)
  | some tracked =>
    match fs.mtime tracked.path with
    | none => (st, false)
    | some current_modified =>
      if tracked.last_modified < current_modified then
        match fs.content tracked.path with
        | none => (st, false)
        | some content =>
          let tracked' := { tracked with html := markdown_to_html render content,
                                         last_modified := current_modified }
          ({ st with tracked_files := alistUpdate st.tracked_files relative_path tracked' },
            true)
      else (st, true)

/-- `MarkdownState::add_tracked_file` from app.rs lines 302-325. -/
def add_tracked_file (render : String → String) (fs : FileSys) (st : MarkdownState)
    (file_path : String) : Except Unit MarkdownState :=
  match calculate_relative_path fs file_path st.base_dir with
  | none => .error ()
  | some relative_path =>
    if memKey st.tracked_files relative_path then .ok st
    else
      match fs.mtime file_path, fs.content file_path with
      | some last_modified, some content =>
        .ok { st with tracked_files := st.tracked_files ++
          [(relative_path,
            { path := file_path, relative_path := relative_path,
              last_modified := last_modified,
              html := markdown_to_html render content,
              content_hash := md5_compute content })] }
      | _, _ => .error ()

/-- `handle_markdown_file_change` from app.rs lines 428-450.  Returns the
new state together with the messages sent on the change bus. -/
def handle_markdown_file_change (render : String → String) (fs : FileSys)
    (st : MarkdownState) (path : String) : MarkdownState × List ServerMessage :=
  if !(is_markdown_file path) then (st, [])
  else
    match calculate_relative_path fs path st.base_dir with
    | none => (st, [])
    | some relative_path =>
      if memKey st.tracked_files relative_path then
        let (st', ok) := refresh_file render fs st relative_path
        if ok then (st', [.Reload]) else (st', [])
      else if st.is_directory_mode then
        match add_tracked_file render fs st path with
        | .ok st' => (st', [.Reload])
        | .error _ => (st, [])
      else (st, [])

/-! ### The HTTP serving boundary -/

/-- The responses produced by the route handlers, with the template layer
abstracted away: a markdown response is `okHtml` of the cached `html` the
template is rendered around (embedded templates cannot fail to load). -/
inductive HttpResponse where
  | okHtml (body : String)
  | okFile (contentType : String) (body : String)
  | notFound (body : String)
  | forbidden (body : String)
  | internalError (body : String)
deriving DecidableEq, Repr

/-- `render_markdown` from app.rs lines 779-835, abstracted to the lookup
of the cached content: 200 around `tracked.html` when the file is tracked,
404 otherwise. -/
def render_markdown (st : MarkdownState) (current_file : String) : HttpResponse :=
  match alistGet st.tracked_files current_file with
  | some tracked => .okHtml tracked.html
  | none => .notFound "File not found"

/-- `MarkdownState::get_sorted_filenames` from app.rs lines 175-179. -/
def get_sorted_filenames (st : MarkdownState) : List String :=
  sortListBy strLe (st.tracked_files.map Prod.fst)

/-- `serve_html_root` from app.rs lines 736-752. -/
def serve_html_root (render : String → String) (fs : FileSys) (st : MarkdownState) :
    MarkdownState × HttpResponse :=
  match get_sorted_filenames st with
  | [] => (st, .internalError "No files available to serve")
  | relative_path :: _ =>
    let st' := (refresh_file render fs st relative_path).1
    (st', render_markdown st' relative_path)

/-- `path.strip_prefix('/')` in `serve_file`. -/
def stripLeadingSlash (p : String) : String :=
  match p.data with
  | '/' :: rest => ⟨rest⟩
  | _ => p

/-- Rust `str::ends_with`, on character data. -/
def endsWithStr (s suffix : String) : Bool := suffix.data.isSuffixOf s.data

/-- Rust `Path::join`: an absolute right-hand side replaces the base. -/
def pathJoin (base p : String) : String :=
  match p.data with
  | '/' :: _ => p
  | _ => ⟨base.data ++ '/' :: p.data⟩

/-- Rust `Path::starts_with`: component-wise prefix (`/root` is a prefix
of `/root/x` but not of `/rootx`). -/
def isPathPrefix (base p : String) : Bool :=
  decide (p.data = base.data) || (base.data ++ ['/']).isPrefixOf p.data

/-- `serve_static_file_inner` from app.rs lines 872-916: join the request
onto the root, canonicalize, reject anything that does not stay under the
root, and only then read. -/
def serve_static_file_inner (fs : FileSys) (st : MarkdownState) (filename : String) :
    HttpResponse :=
  let full_path := pathJoin st.base_dir filename
  match fs.canon full_path with
  | some canonical_path =>
    if !(isPathPrefix st.base_dir canonical_path) then .forbidden "Access denied"
    else
      match fs.content canonical_path with
      | some contents => .okFile (guess_image_content_type filename) contents
      | none => .notFound "File not found"
  | none => .notFound "File not found"

/-- `serve_file` from app.rs lines 754-777. -/
def serve_file (render : String → String) (fs : FileSys) (st : MarkdownState)
    (path : String) : MarkdownState × HttpResponse :=
  let relative_path := stripLeadingSlash path
  if endsWithStr relative_path ".md" || endsWithStr relative_path ".markdown" then
    if !(memKey st.tracked_files relative_path) then (st, .notFound "File not found")
    else
      let st' := (refresh_file render fs st relative_path).1
      (st', render_markdown st' relative_path)
  else if is_image_file relative_path then
    (st, serve_static_file_inner fs st relative_path)
  else
    (st, .notFound "File not found")

/-! ### The directory tree and the recursive scanner

The scanner walks real directories; it is embedded over an explicit
directory tree.  A directory carries `readable = false` when reading it
(`fs::read_dir`, or fetching one of its entries) fails; files carry the
mtime and content that the reconciliation pass reads.  Scanner results are
paths relative to the scanned root, one component per element (the source
returns full paths `root/…`; with the constant root prefix shared by every
result, sorting and set structure are unaffected). -/

/-- A filesystem subtree. -/
inductive FSTree where
  | file (name : String) (mtime : Nat) (content : String)
  | dir (name : String) (readable : Bool) (entries : List FSTree)

/-- The name of an entry. -/
def entryName : FSTree → String
  | .file n _ _ => n
  | .dir n _ _ => n

mutual
/-- One step of `scan_markdown_files_recursive` (app.rs lines 70-84) for a
single directory entry: a matching file contributes its path, a directory
is read (failing with the `?`-propagated IO error if unreadable) and
recursed into. -/
def scanEntry : FSTree → Except Unit (List (List String))
  | .file n _ _ => .ok (if is_markdown_file n then [[n]] else [])
  | .dir n readable entries =>
    if readable then
      match scanEntries entries with
      | .ok l => .ok (l.map (fun p => n :: p))
      | .error u => .error u
    else .error ()

/-- `scan_markdown_files_recursive` over the entries of one directory, in
`read_dir` order; the first failing entry aborts the whole scan, exactly
as the `?` operators in the source do. -/
def scanEntries : List FSTree → Except Unit (List (List String))
  | [] => .ok []
  | e :: es =>
    match scanEntry e, scanEntries es with
    | .ok a, .ok b => .ok (a ++ b)
    | .error u, _ => .error u
    | _, .error u => .error u
end

/-- `scan_markdown_files` from app.rs lines 63-68: recursive scan of the
root directory followed by `md_files.sort()`. -/
def scan_markdown_files_tree : FSTree → Except Unit (List (List String))
  | .file _ _ _ => .error ()
  | .dir _ readable entries =>
    if readable then
      match scanEntries entries with
      | .ok l => .ok (sortListBy pathLe l)
      | .error u => .error u
    else .error ()

mutual
/-- Is some directory in this subtree (the subtree root included)
unreadable? -/
def hasUnreadableEntry : FSTree → Bool
  | .file _ _ _ => false
  | .dir _ readable entries => !readable || hasUnreadableEntries entries

/-- Is some directory among these entries (or deeper) unreadable? -/
def hasUnreadableEntries : List FSTree → Bool
  | [] => false
  | e :: es => hasUnreadableEntry e || hasUnreadableEntries es
end

mutual
/-- Does this entry contain, at relative path `p`, a file whose extension
matches the document extension set? -/
def treeHasMdFile : FSTree → List String → Bool
  | .file n _ _, p => decide (p = [n]) && is_markdown_file n
  | .dir n _ es, p =>
    match p with
    | [] => false
    | x :: xs => decide (x = n) && treeListHasMdFile es xs

/-- `treeHasMdFile` over a list of sibling entries. -/
def treeListHasMdFile : List FSTree → List String → Bool
  | [], _ => false
  | e :: es, p => treeHasMdFile e p || treeListHasMdFile es p
end

mutual
/-- Well-formedness of a subtree: sibling names are pairwise distinct at
every level (true of every real directory). -/
def entryWF : FSTree → Bool
  | .file _ _ _ => true
  | .dir _ _ es => entriesWF es

/-- Well-formedness of a list of sibling entries. -/
def entriesWF : List FSTree → Bool
  | [] => true
  | e :: es => entryWF e && entriesWF es && !((es.map entryName).contains (entryName e))
end

/-- Join path components with `/`, turning a scanner path into the
relative-path string key used by the index. -/
def joinPath : List String → String
  | [] => ""
  | [x] => x
  | x :: xs => x ++ "/" ++ joinPath xs

mutual
/-- Look up the file at relative path `p` in a subtree, returning its
mtime and content (`fs::metadata` + `fs::read_to_string`). -/
def findFileEntry : FSTree → List String → Option (Nat × String)
  | .file n m c, p => if p = [n] then some (m, c) else none
  | .dir n _ es, p =>
    match p with
    | [] => none
    | x :: xs => if x = n then findFileList es xs else none

/-- `findFileEntry` over a list of sibling entries. -/
def findFileList : List FSTree → List String → Option (Nat × String)
  | [], _ => none
  | e :: es, p =>
    match findFileEntry e p with
    | some r => some r
    | none => findFileList es p
end

/-- The entries of the root directory. -/
def rootEntries : FSTree → List FSTree
  | .file _ _ _ => []
  | .dir _ _ es => es

/-- The add-new-files loop of `rescan_directory` (app.rs lines 362-400):
walk the freshly scanned files in order, skip keys already present, read
mtime and content for each new file (skipping it on failure), and append
the new tracked entry. -/
def addNewFiles (render : String → String) (es : List FSTree) (base : String) :
    List (List String) → List (String × TrackedFile) → List (String × TrackedFile)
  | [], acc => acc
  | p :: ps, acc =>
    let key := joinPath p
    if memKey acc key then addNewFiles render es base ps acc
    else
      match findFileList es p with
      | some (m, c) =>
        addNewFiles render es base ps (acc ++ [(key,
          TrackedFile.mk (base ++ "/" ++ key) key m
            (markdown_to_html render c) (md5_compute c))])
      | none => addNewFiles render es base ps acc

/-- `MarkdownState::rescan_directory` from app.rs lines 329-403: no-op in
single-file mode; scan the root (propagating its error); compare the
scanned key set with the tracked key set (`HashSet` equality, i.e. mutual
containment) and return `false` (unchanged) when they agree; otherwise
retain only still-present keys, add the newly discovered files
best-effort, and return `true`.  The per-file `canonicalize` +
`strip_prefix` of the source is the identity on the tree model's relative
paths (the tree has no symlinks). -/
def rescan_directory (render : String → String) (root : FSTree) (st : MarkdownState) :
    Except Unit (MarkdownState × Bool) :=
  if st.is_directory_mode = false then .ok (st, false)
  else
    match scan_markdown_files_tree root with
    | .error u => .error u
    | .ok current_files =>
      let current_keys := current_files.map joinPath
      let tracked_keys := st.tracked_files.map Prod.fst
      if current_keys.all (fun k => tracked_keys.contains k) &&
         tracked_keys.all (fun k => current_keys.contains k) then
        .ok (st, false)
      else
        let retained := st.tracked_files.filter (fun kv => current_keys.contains kv.1)
        .ok (MarkdownState.mk st.base_dir
          (addNewFiles render (rootEntries root) st.base_dir current_files retained)
          st.is_directory_mode, true)

end Mdserve

namespace Mdserve

/-- C1 counterexample. The claim says the classifier decides `Renamed` from
the cardinalities alone: with previous keys `{a.md, b.md}` and a pass that
removes `b.md` and adds `c.md` with unrelated contents, the emitted message
would be `FileRenamed{old=b.md, new=c.md}`.  At exactly that input
(digest of the removed `b.md` is `"B"`, digest of the added `c.md` is `"C"`),
`detect_file_change` instead falls through the failed digest comparison and
classifies `Removed "b.md"`, so the emitted message is `FileRemoved "b.md"`. -/
theorem c1_counterexample :
    detect_file_change ["a.md", "b.md"] ["a.md", "c.md"]
        [("a.md", ⟨"A"⟩), ("b.md", ⟨"B"⟩)]
        [("a.md", ⟨"a.md", "a.md", 0, "", ⟨"A"⟩⟩), ("c.md", ⟨"c.md", "c.md", 0, "", ⟨"C"⟩⟩)]
      = FileChangeType.Removed "b.md" ∧
    send_change_message
        (detect_file_change ["a.md", "b.md"] ["a.md", "c.md"]
          [("a.md", ⟨"A"⟩), ("b.md", ⟨"B"⟩)]
          [("a.md", ⟨"a.md", "a.md", 0, "", ⟨"A"⟩⟩), ("c.md", ⟨"c.md", "c.md", 0, "", ⟨"C"⟩⟩)])
      ≠ ServerMessage.FileRenamed "b.md" "c.md" := by
  constructor
  · decide
  · decide

/-- C1 amended: when exactly one key was added and exactly one key was
removed, the change is classified `Renamed{old, new}` exactly when the
stored digest of the removed key equals the content digest of the added
key's new tracked entry; on a digest mismatch the classifier falls through
and classifies `Removed{old}` instead — the cardinalities alone do not
suffice. -/
theorem c1_rename_requires_digest_match
    (old_files new_files : List String)
    (old_hashes : List (String × Digest))
    (new_tracked : List (String × TrackedFile))
    (o n : String) (h : Digest) (tf : TrackedFile)
    (hadd : new_files.filter (fun k => !(old_files.contains k)) = [n])
    (hrem : old_files.filter (fun k => !(new_files.contains k)) = [o])
    (hold : alistGet old_hashes o = some h)
    (hnew : alistGet new_tracked n = some tf) :
    (h = tf.content_hash →
      detect_file_change old_files new_files old_hashes new_tracked = .Renamed o n) ∧
    (h ≠ tf.content_hash →
      detect_file_change old_files new_files old_hashes new_tracked = .Removed o) := by
  unfold detect_file_change
  rw [hadd, hrem]
  simp only [hold, hnew]
  constructor
  · intro he
    simp [he]
  · intro hne
    simp [hne]

/-- Witness for `c1_rename_requires_digest_match` at concrete inputs:
matching digests give `Renamed`, mismatching digests give `Removed`. -/
theorem c1_rename_requires_digest_match_witness :
    detect_file_change ["a.md", "b.md"] ["a.md", "c.md"]
        [("a.md", ⟨"A"⟩), ("b.md", ⟨"B"⟩)]
        [("a.md", ⟨"a.md", "a.md", 0, "", ⟨"A"⟩⟩), ("c.md", ⟨"c.md", "c.md", 0, "", ⟨"B"⟩⟩)]
      = FileChangeType.Renamed "b.md" "c.md" ∧
    detect_file_change ["a.md", "b.md"] ["a.md", "d.md"]
        [("a.md", ⟨"A"⟩), ("b.md", ⟨"B"⟩)]
        [("a.md", ⟨"a.md", "a.md", 0, "", ⟨"A"⟩⟩), ("d.md", ⟨"d.md", "d.md", 0, "", ⟨"D"⟩⟩)]
      = FileChangeType.Removed "b.md" := by
  constructor
  · exact (c1_rename_requires_digest_match ["a.md", "b.md"] ["a.md", "c.md"]
      [("a.md", ⟨"A"⟩), ("b.md", ⟨"B"⟩)]
      [("a.md", ⟨"a.md", "a.md", 0, "", ⟨"A"⟩⟩), ("c.md", ⟨"c.md", "c.md", 0, "", ⟨"B"⟩⟩)]
      "b.md" "c.md" ⟨"B"⟩ ⟨"c.md", "c.md", 0, "", ⟨"B"⟩⟩
      (by decide) (by decide) (by decide) (by decide)).1 (by decide)
  · exact (c1_rename_requires_digest_match ["a.md", "b.md"] ["a.md", "d.md"]
      [("a.md", ⟨"A"⟩), ("b.md", ⟨"B"⟩)]
      [("a.md", ⟨"a.md", "a.md", 0, "", ⟨"A"⟩⟩), ("d.md", ⟨"d.md", "d.md", 0, "", ⟨"D"⟩⟩)]
      "b.md" "d.md" ⟨"B"⟩ ⟨"d.md", "d.md", 0, "", ⟨"D"⟩⟩
      (by decide) (by decide) (by decide) (by decide)).2 (by decide)

end Mdserve

namespace Mdserve

/-- C5 counterexample: starting from no pending timer, a first rename-class
event in directory mode arms one timer, and a second rename-class event
arriving before the quiet window elapses (no timer has fired in between)
arms a second one — two timers are pending simultaneously, refuting
"at most one delayed-reconciliation timer is pending at any time". -/
theorem c5_counterexample :
    (handle_rename_event_timers .Both true
        (handle_rename_event_timers .Both true ⟨0⟩)).pendingRescans = 2 ∧
    ¬ (handle_rename_event_timers .Both true
        (handle_rename_event_timers .Both true ⟨0⟩)).pendingRescans ≤ 1 := by
  constructor
  · rfl
  · decide

/-- C5 amended: every rename-class event in directory mode spawns its own
delayed-reconciliation timer; `k` such events before any timer fires leave
`k` timers pending.  (This is harmless per spec §5: each timer's body
re-reads live filesystem state, so redundant timers are merely wasteful,
and they are never cancelled.) -/
theorem c5_each_rename_event_spawns_timer
    (mode : RenameMode) (k : Nat) (s : SchedulerState) :
    (Nat.iterate (handle_rename_event_timers mode true) k s).pendingRescans
      = s.pendingRescans + k := by
  induction k generalizing s with
  | zero => rfl
  | succ n ih =>
    rw [Function.iterate_succ_apply]
    rw [ih]
    simp [handle_rename_event_timers, schedule_delayed_rescan]
    omega

end Mdserve

namespace Mdserve

/-! ### Order and sorting lemmas -/

theorem strListLt_irrefl (as : List Char) : strListLt as as = false := by
  induction as with
  | nil => rfl
  | cons a as ih => simp [strListLt, ih]

theorem strListLt_ne {as bs : List Char} (h : strListLt as bs = true) : as ≠ bs := by
  intro hc
  subst hc
  rw [strListLt_irrefl] at h
  exact Bool.false_ne_true h

theorem strListLt_total (as bs : List Char) :
    as = bs ∨ strListLt as bs = true ∨ strListLt bs as = true := by
  induction as generalizing bs with
  | nil =>
    cases bs with
    | nil => left; rfl
    | cons b bs => right; left; rfl
  | cons a as ih =>
    cases bs with
    | nil => right; right; rfl
    | cons b bs =>
      rcases lt_trichotomy a b with hlt | heq | hgt
      · right; left; simp [strListLt, ne_of_lt hlt, hlt]
      · subst heq
        rcases ih bs with h | h | h
        · left; rw [h]
        · right; left; simp [strListLt, h]
        · right; right; simp [strListLt, h]
      · right; right; simp [strListLt, ne_of_lt hgt, (ne_of_lt hgt).symm, hgt]

theorem strListLt_trans :
    ∀ as bs cs : List Char, strListLt as bs = true → strListLt bs cs = true →
      strListLt as cs = true := by
  intro as
  induction as with
  | nil =>
    intro bs cs h1 h2
    cases bs with
    | nil => simp [strListLt] at h1
    | cons b bs =>
      cases cs with
      | nil => simp [strListLt] at h2
      | cons c cs => rfl
  | cons a as ih =>
    intro bs cs h1 h2
    cases bs with
    | nil => simp [strListLt] at h1
    | cons b bs =>
      cases cs with
      | nil => simp [strListLt] at h2
      | cons c cs =>
        by_cases hab : a = b
        · subst hab
          by_cases hbc : a = c
          · subst hbc
            simp only [strListLt, if_pos rfl] at h1 h2 ⊢
            exact ih bs cs h1 h2
          · simp only [strListLt, if_pos rfl] at h1
            simp only [strListLt, if_neg hbc] at h2 ⊢
            exact h2
        · simp only [strListLt, if_neg hab, decide_eq_true_eq] at h1
          by_cases hbc : b = c
          · subst hbc
            simp only [strListLt, if_neg hab, decide_eq_true_eq]
            exact h1
          · simp only [strListLt, if_neg hbc, decide_eq_true_eq] at h2
            have hac : a < c := lt_trans h1 h2
            simp only [strListLt, if_neg (ne_of_lt hac), decide_eq_true_eq]
            exact hac

theorem strListLe_refl (as : List Char) : strListLe as as = true := by
  induction as with
  | nil => rfl
  | cons a as ih => simp [strListLe, ih]

theorem strListLe_total (as bs : List Char) :
    strListLe as bs = true ∨ strListLe bs as = true := by
  induction as generalizing bs with
  | nil => left; rfl
  | cons a as ih =>
    cases bs with
    | nil => right; rfl
    | cons b bs =>
      rcases lt_trichotomy a b with hlt | heq | hgt
      · left; simp [strListLe, ne_of_lt hlt, hlt]
      · subst heq
        rcases ih bs with h | h
        · left; simp [strListLe, h]
        · right; simp [strListLe, h]
      · right; simp [strListLe, ne_of_lt hgt, hgt, (ne_of_lt hgt).symm]

theorem strListLe_trans :
    ∀ as bs cs : List Char, strListLe as bs = true → strListLe bs cs = true →
      strListLe as cs = true := by
  intro as
  induction as with
  | nil => intro bs cs _ _; rfl
  | cons a as ih =>
    intro bs cs h1 h2
    cases bs with
    | nil => simp [strListLe] at h1
    | cons b bs =>
      cases cs with
      | nil => simp [strListLe] at h2
      | cons c cs =>
        by_cases hab : a = b
        · subst hab
          by_cases hbc : a = c
          · subst hbc
            simp only [strListLe, if_pos rfl] at h1 h2 ⊢
            exact ih bs cs h1 h2
          · simp only [strListLe, if_pos rfl] at h1
            simp only [strListLe, if_neg hbc] at h2 ⊢
            exact h2
        · simp only [strListLe, if_neg hab, decide_eq_true_eq] at h1
          by_cases hbc : b = c
          · subst hbc
            simp only [strListLe, if_neg hab, decide_eq_true_eq]
            exact h1
          · simp only [strListLe, if_neg hbc, decide_eq_true_eq] at h2
            have hac : a < c := lt_trans h1 h2
            simp only [strListLe, if_neg (ne_of_lt hac), decide_eq_true_eq]
            exact hac

theorem strLe_refl (a : String) : strLe a a = true := strListLe_refl a.data

theorem strLe_total (a b : String) : strLe a b = true ∨ strLe b a = true :=
  strListLe_total a.data b.data

theorem strLe_trans (a b c : String) (h1 : strLe a b = true) (h2 : strLe b c = true) :
    strLe a c = true :=
  strListLe_trans a.data b.data c.data h1 h2

theorem pathLe_refl (p : List String) : pathLe p p = true := by
  induction p with
  | nil => rfl
  | cons a p ih => simp [pathLe, ih]

theorem pathLe_total (p q : List String) : pathLe p q = true ∨ pathLe q p = true := by
  induction p generalizing q with
  | nil => left; rfl
  | cons a p ih =>
    cases q with
    | nil => right; rfl
    | cons b q =>
      rcases strListLt_total a.data b.data with h | h | h
      · rcases ih q with h2 | h2
        · left; simp [pathLe, h, h2]
        · right; simp [pathLe, h.symm, h2]
      · left; simp [pathLe, strListLt_ne h, h]
      · right; simp [pathLe, strListLt_ne h, Ne.symm (strListLt_ne h), h]

theorem pathLe_trans :
    ∀ p q r : List String, pathLe p q = true → pathLe q r = true → pathLe p r = true := by
  intro p
  induction p with
  | nil => intro q r _ _; rfl
  | cons a as ih =>
    intro q r h1 h2
    cases q with
    | nil => simp [pathLe] at h1
    | cons b bs =>
      cases r with
      | nil => simp [pathLe] at h2
      | cons c cs =>
        by_cases hab : a.data = b.data
        · by_cases hbc : b.data = c.data
          · simp only [pathLe, if_pos hab] at h1
            simp only [pathLe, if_pos hbc] at h2
            simp only [pathLe, if_pos (hab.trans hbc)]
            exact ih bs cs h1 h2
          · simp only [pathLe, if_neg hbc] at h2
            have hac : ¬ a.data = c.data := by rw [hab]; exact hbc
            simp only [pathLe, if_neg hac]
            rw [hab]
            exact h2
        · simp only [pathLe, if_neg hab] at h1
          by_cases hbc : b.data = c.data
          · have hac : ¬ a.data = c.data := by rw [← hbc]; exact hab
            simp only [pathLe, if_neg hac]
            rw [← hbc]
            exact h1
          · simp only [pathLe, if_neg hbc] at h2
            have hlt := strListLt_trans _ _ _ h1 h2
            simp only [pathLe, if_neg (strListLt_ne hlt)]
            exact hlt

theorem insertSorted_perm {α : Type} (le : α → α → Bool) (x : α) (l : List α) :
    List.Perm (insertSorted le x l) (x :: l) := by
  induction l with
  | nil => simp [insertSorted]
  | cons y ys ih =>
    by_cases h : le x y = true
    · simp [insertSorted, h]
    · simp only [insertSorted, h]
      simp only [Bool.false_eq_true, if_false]
      exact (List.Perm.cons y ih).trans (List.Perm.swap x y ys)

theorem sortListBy_perm {α : Type} (le : α → α → Bool) (l : List α) :
    List.Perm (sortListBy le l) l := by
  induction l with
  | nil => simp [sortListBy]
  | cons x xs ih =>
    exact (insertSorted_perm le x (sortListBy le xs)).trans (List.Perm.cons x ih)

theorem mem_insertSorted {α : Type} (le : α → α → Bool) (x z : α) (l : List α) :
    z ∈ insertSorted le x l ↔ z = x ∨ z ∈ l := by
  rw [(insertSorted_perm le x l).mem_iff]
  simp

theorem mem_sortListBy {α : Type} (le : α → α → Bool) (z : α) (l : List α) :
    z ∈ sortListBy le l ↔ z ∈ l :=
  (sortListBy_perm le l).mem_iff

theorem insertSorted_pairwise {α : Type} (le : α → α → Bool)
    (htot : ∀ a b, le a b = true ∨ le b a = true)
    (htrans : ∀ a b c, le a b = true → le b c = true → le a c = true)
    (x : α) (l : List α)
    (hl : l.Pairwise (fun a b => le a b = true)) :
    (insertSorted le x l).Pairwise (fun a b => le a b = true) := by
  induction l with
  | nil => simp [insertSorted]
  | cons y ys ih =>
    rcases List.pairwise_cons.mp hl with ⟨hy, hys⟩
    by_cases h : le x y = true
    · simp only [insertSorted, h, if_true]
      refine List.pairwise_cons.mpr ⟨?_, hl⟩
      intro z hz
      rcases List.mem_cons.mp hz with hz | hz
      · subst hz; exact h
      · exact htrans x y z h (hy z hz)
    · simp only [insertSorted, h]
      simp only [Bool.false_eq_true, if_false]
      refine List.pairwise_cons.mpr ⟨?_, ih hys⟩
      intro z hz
      rcases (mem_insertSorted le x z ys).mp hz with hz | hz
      · subst hz
        rcases htot y z with h2 | h2
        · exact h2
        · exact absurd h2 (by simpa using h)
      · exact hy z hz

theorem sortListBy_pairwise {α : Type} (le : α → α → Bool)
    (htot : ∀ a b, le a b = true ∨ le b a = true)
    (htrans : ∀ a b c, le a b = true → le b c = true → le a c = true)
    (l : List α) :
    (sortListBy le l).Pairwise (fun a b => le a b = true) := by
  induction l with
  | nil => simp [sortListBy]
  | cons x xs ih => exact insertSorted_pairwise le htot htrans x (sortListBy le xs) ih

theorem sortListBy_head_min {α : Type} (le : α → α → Bool)
    (htot : ∀ a b, le a b = true ∨ le b a = true)
    (htrans : ∀ a b c, le a b = true → le b c = true → le a c = true)
    (hrefl : ∀ a, le a a = true)
    (l : List α) (k : α) (rest : List α)
    (h : sortListBy le l = k :: rest) :
    k ∈ l ∧ ∀ z ∈ l, le k z = true := by
  have hperm := sortListBy_perm le l
  rw [h] at hperm
  constructor
  · exact hperm.mem_iff.mp (List.mem_cons_self k rest)
  · intro z hz
    have hz' : z ∈ k :: rest := hperm.mem_iff.mpr hz
    rcases List.mem_cons.mp hz' with hz' | hz'
    · subst hz'; exact hrefl z
    · have hp := sortListBy_pairwise le htot htrans l
      rw [h] at hp
      exact (List.pairwise_cons.mp hp).1 z hz'

end Mdserve

namespace Mdserve

/-! ### Index lemmas -/

theorem alistGet_isSome_iff {α : Type} (m : List (String × α)) (k : String) :
    (alistGet m k).isSome = true ↔ k ∈ m.map Prod.fst := by
  induction m with
  | nil => simp [alistGet]
  | cons kv rest ih =>
    by_cases h : kv.1 = k
    · simp [alistGet, h]
    · simp [alistGet, h, ih, Ne.symm h]

theorem alistUpdate_keys {α : Type} (m : List (String × α)) (k : String) (v : α) :
    (alistUpdate m k v).map Prod.fst = m.map Prod.fst := by
  induction m with
  | nil => rfl
  | cons kv rest ih =>
    by_cases h : kv.1 = k
    · simp [alistUpdate, h] at ih ⊢
      exact ih
    · simp [alistUpdate, h] at ih ⊢
      exact ih

theorem refresh_file_keys (render : String → String) (fs : FileSys)
    (st : MarkdownState) (rel : String) :
    ((refresh_file render fs st rel).1).tracked_files.map Prod.fst
      = st.tracked_files.map Prod.fst := by
  unfold refresh_file
  repeat' split
  all_goals simp [alistUpdate_keys]

end Mdserve

namespace Mdserve

/-- C9: the document route of `serve_file` matches the requested extension
case-sensitively (`ends_with(".md")` / `ends_with(".markdown")`) while the
scanner's `is_markdown_file` matches case-insensitively: every request
whose path (after stripping one leading slash) does not end in the exact
lowercase `.md` or `.markdown` and is not an image path gets
404 `File not found`; in particular `NOTES.MD` is a markdown file for the
scanner (so it is indexed and listed) yet its own path can never be
served. -/
theorem c9_route_extension_case_sensitive :
    (∀ (render : String → String) (fs : FileSys) (st : MarkdownState) (path : String),
      endsWithStr (stripLeadingSlash path) ".md" = false →
      endsWithStr (stripLeadingSlash path) ".markdown" = false →
      is_image_file (stripLeadingSlash path) = false →
      (serve_file render fs st path).2 = .notFound "File not found") ∧
    is_markdown_file "NOTES.MD" = true ∧
    endsWithStr "NOTES.MD" ".md" = false ∧
    endsWithStr "NOTES.MD" ".markdown" = false ∧
    is_image_file "NOTES.MD" = false := by
  refine ⟨?_, by decide, by decide, by decide, by decide⟩
  intro render fs st path h1 h2 h3
  unfold serve_file
  simp [h1, h2, h3]

/-- Witness for `c9_route_extension_case_sensitive`: a concrete request for
`NOTES.MD` (even while `NOTES.MD` is tracked) is answered 404. -/
theorem c9_route_extension_case_sensitive_witness :
    (serve_file id ⟨fun _ => none, fun _ => none, fun _ => none⟩
        ⟨"/root", [("NOTES.MD", ⟨"/root/NOTES.MD", "NOTES.MD", 0, "", ⟨"x"⟩⟩)], true⟩
        "NOTES.MD").2 = .notFound "File not found" :=
  c9_route_extension_case_sensitive.1 id ⟨fun _ => none, fun _ => none, fun _ => none⟩
    ⟨"/root", [("NOTES.MD", ⟨"/root/NOTES.MD", "NOTES.MD", 0, "", ⟨"x"⟩⟩)], true⟩
    "NOTES.MD" (by decide) (by decide) (by decide)

/-- C10: the root route is deterministic over the index contents.  With an
empty index it answers 500 `No files available to serve` (not 404); with a
non-empty index it picks the lexicographically smallest tracked relative
path, refreshes that file, and serves its cached content. -/
theorem c10_root_route_serves_smallest
    (render : String → String) (fs : FileSys) (st : MarkdownState) :
    (st.tracked_files = [] →
      serve_html_root render fs st = (st, .internalError "No files available to serve")) ∧
    (st.tracked_files ≠ [] →
      ∃ k tf,
        k ∈ st.tracked_files.map Prod.fst ∧
        (∀ k' ∈ st.tracked_files.map Prod.fst, strLe k k' = true) ∧
        alistGet ((refresh_file render fs st k).1).tracked_files k = some tf ∧
        serve_html_root render fs st = ((refresh_file render fs st k).1, .okHtml tf.html)) := by
  constructor
  · intro hnil
    unfold serve_html_root get_sorted_filenames
    rw [hnil]
    rfl
  · intro hne
    have hkeysne : st.tracked_files.map Prod.fst ≠ [] := by simpa using hne
    have hsortne : get_sorted_filenames st ≠ [] := by
      unfold get_sorted_filenames
      intro hc
      have hp := sortListBy_perm strLe (st.tracked_files.map Prod.fst)
      rw [hc] at hp
      exact hkeysne hp.symm.eq_nil
    obtain ⟨k, rest, hsort⟩ := List.exists_cons_of_ne_nil hsortne
    have hsort' : sortListBy strLe (st.tracked_files.map Prod.fst) = k :: rest := hsort
    obtain ⟨hkmem, hkmin⟩ :=
      sortListBy_head_min strLe strLe_total strLe_trans strLe_refl _ k rest hsort'
    have hsome : (alistGet ((refresh_file render fs st k).1).tracked_files k).isSome = true := by
      rw [alistGet_isSome_iff, refresh_file_keys]
      exact hkmem
    obtain ⟨tf, htf⟩ := Option.isSome_iff_exists.mp hsome
    refine ⟨k, tf, hkmem, hkmin, htf, ?_⟩
    unfold serve_html_root
    rw [hsort]
    simp only [render_markdown, htf]

/-- Witness for `c10_root_route_serves_smallest` at a concrete two-file
index: the empty case answers 500 and the non-empty case serves the
smallest key. -/
theorem c10_root_route_serves_smallest_witness :
    (serve_html_root id ⟨fun _ => none, fun _ => none, fun _ => none⟩
        ⟨"/root", [], true⟩
      = (⟨"/root", [], true⟩, .internalError "No files available to serve")) ∧
    ((⟨"/root", [("b.md", ⟨"/root/b.md", "b.md", 0, "B", ⟨"B"⟩⟩),
                 ("a.md", ⟨"/root/a.md", "a.md", 0, "A", ⟨"A"⟩⟩)], true⟩ :
        MarkdownState).tracked_files ≠ [] ∧
      ∃ k tf,
        k ∈ (⟨"/root", [("b.md", ⟨"/root/b.md", "b.md", 0, "B", ⟨"B"⟩⟩),
                        ("a.md", ⟨"/root/a.md", "a.md", 0, "A", ⟨"A"⟩⟩)], true⟩ :
          MarkdownState).tracked_files.map Prod.fst ∧
        (∀ k' ∈ (⟨"/root", [("b.md", ⟨"/root/b.md", "b.md", 0, "B", ⟨"B"⟩⟩),
                            ("a.md", ⟨"/root/a.md", "a.md", 0, "A", ⟨"A"⟩⟩)], true⟩ :
          MarkdownState).tracked_files.map Prod.fst, strLe k k' = true) ∧
        alistGet ((refresh_file id ⟨fun _ => none, fun _ => none, fun _ => none⟩
            ⟨"/root", [("b.md", ⟨"/root/b.md", "b.md", 0, "B", ⟨"B"⟩⟩),
                       ("a.md", ⟨"/root/a.md", "a.md", 0, "A", ⟨"A"⟩⟩)], true⟩ k).1).tracked_files k
          = some tf ∧
        serve_html_root id ⟨fun _ => none, fun _ => none, fun _ => none⟩
            ⟨"/root", [("b.md", ⟨"/root/b.md", "b.md", 0, "B", ⟨"B"⟩⟩),
                       ("a.md", ⟨"/root/a.md", "a.md", 0, "A", ⟨"A"⟩⟩)], true⟩
          = ((refresh_file id ⟨fun _ => none, fun _ => none, fun _ => none⟩
              ⟨"/root", [("b.md", ⟨"/root/b.md", "b.md", 0, "B", ⟨"B"⟩⟩),
                         ("a.md", ⟨"/root/a.md", "a.md", 0, "A", ⟨"A"⟩⟩)], true⟩ k).1,
             .okHtml tf.html)) :=
  ⟨(c10_root_route_serves_smallest id ⟨fun _ => none, fun _ => none, fun _ => none⟩
      ⟨"/root", [], true⟩).1 rfl,
   by decide,
   (c10_root_route_serves_smallest id ⟨fun _ => none, fun _ => none, fun _ => none⟩
      ⟨"/root", [("b.md", ⟨"/root/b.md", "b.md", 0, "B", ⟨"B"⟩⟩),
                 ("a.md", ⟨"/root/a.md", "a.md", 0, "A", ⟨"A"⟩⟩)], true⟩).2 (by decide)⟩

end Mdserve

namespace Mdserve

/-- C4 counterexample.  The claim says a refresh on a strictly newer mtime
recomputes the stored content digest from the newly-read content.  At a
concrete tracked file with stored digest of `"old"`, stored mtime 1,
current mtime 2 and current content `"new"`, `refresh_file` rereads and
updates `html` and `last_modified` but leaves `content_hash` at the digest
of `"old"`, which differs from the digest of the newly-read `"new"`. -/
theorem c4_counterexample :
    (refresh_file id
        ⟨fun _ => none,
         fun p => if p = "/root/a.md" then some 2 else none,
         fun p => if p = "/root/a.md" then some "new" else none⟩
        ⟨"/root", [("a.md", ⟨"/root/a.md", "a.md", 1, "old html", ⟨"old"⟩⟩)], true⟩
        "a.md").1.tracked_files
      = [("a.md", ⟨"/root/a.md", "a.md", 2, "new", ⟨"old"⟩⟩)] ∧
    (⟨"old"⟩ : Digest) ≠ md5_compute "new" := by
  constructor
  · decide
  · decide

/-- C4 amended: `refresh_file` rereads the content exactly when the current
mtime is strictly newer than the stored one; in that case the cached
`html` is recomputed from the newly-read content and `last_modified` is
advanced to the strictly larger current mtime (so it never moves
backward), while `content_hash` is left at its previously stored value
(it is not recomputed); when the mtime is not strictly newer the tracked
entry — and the whole state — is left entirely unchanged. -/
theorem c4_refresh_updates_html_not_digest
    (render : String → String) (fs : FileSys) (st : MarkdownState)
    (rel : String) (tracked : TrackedFile) (m : Nat)
    (htr : alistGet st.tracked_files rel = some tracked)
    (hm : fs.mtime tracked.path = some m) :
    (tracked.last_modified < m →
      ∀ c, fs.content tracked.path = some c →
        refresh_file render fs st rel
          = (MarkdownState.mk st.base_dir
              (alistUpdate st.tracked_files rel
                (TrackedFile.mk tracked.path tracked.relative_path m
                  (markdown_to_html render c) tracked.content_hash))
              st.is_directory_mode, true)) ∧
    (¬ tracked.last_modified < m → refresh_file render fs st rel = (st, true)) := by
  constructor
  · intro hlt c hc
    simp only [refresh_file, htr, hm, hc, if_pos hlt]
  · intro hge
    simp only [refresh_file, htr, hm, if_neg hge]

/-- Witness for `c4_refresh_updates_html_not_digest`: both the
strictly-newer branch and the not-newer branch at concrete inputs. -/
theorem c4_refresh_updates_html_not_digest_witness :
    (refresh_file id
        ⟨fun _ => none,
         fun p => if p = "/root/a.md" then some 2 else none,
         fun p => if p = "/root/a.md" then some "new" else none⟩
        ⟨"/root", [("a.md", ⟨"/root/a.md", "a.md", 1, "old html", ⟨"old"⟩⟩)], true⟩
        "a.md"
      = (⟨"/root", alistUpdate
            [("a.md", ⟨"/root/a.md", "a.md", 1, "old html", ⟨"old"⟩⟩)] "a.md"
            ⟨"/root/a.md", "a.md", 2, markdown_to_html id "new", ⟨"old"⟩⟩, true⟩, true)) ∧
    (refresh_file id
        ⟨fun _ => none,
         fun p => if p = "/root/a.md" then some 1 else none,
         fun p => if p = "/root/a.md" then some "new" else none⟩
        ⟨"/root", [("a.md", ⟨"/root/a.md", "a.md", 1, "old html", ⟨"old"⟩⟩)], true⟩
        "a.md"
      = (⟨"/root", [("a.md", ⟨"/root/a.md", "a.md", 1, "old html", ⟨"old"⟩⟩)], true⟩, true)) :=
  ⟨(c4_refresh_updates_html_not_digest id
      ⟨fun _ => none,
       fun p => if p = "/root/a.md" then some 2 else none,
       fun p => if p = "/root/a.md" then some "new" else none⟩
      ⟨"/root", [("a.md", ⟨"/root/a.md", "a.md", 1, "old html", ⟨"old"⟩⟩)], true⟩
      "a.md" ⟨"/root/a.md", "a.md", 1, "old html", ⟨"old"⟩⟩ 2
      (by decide) (by decide)).1 (by decide) "new" (by decide),
   (c4_refresh_updates_html_not_digest id
      ⟨fun _ => none,
       fun p => if p = "/root/a.md" then some 1 else none,
       fun p => if p = "/root/a.md" then some "new" else none⟩
      ⟨"/root", [("a.md", ⟨"/root/a.md", "a.md", 1, "old html", ⟨"old"⟩⟩)], true⟩
      "a.md" ⟨"/root/a.md", "a.md", 1, "old html", ⟨"old"⟩⟩ 1
      (by decide) (by decide)).2 (by decide)⟩

end Mdserve

namespace Mdserve

/-- C2 counterexample.  The claim says the server emits a wire message of
type `FileAdded` carrying the new file's name when a new tracked file
appears in directory mode.  At a concrete confirmed creation (directory
mode, untracked `new.md` readable on disk), `handle_markdown_file_change`
tracks the file and emits exactly `[Reload]` — a message carrying no file
name; the wire union `ServerMessage` has no `FileAdded` variant at all
(its variants are `Reload`, `Pong`, `FileRenamed`, `FileRemoved`). -/
theorem c2_counterexample :
    (handle_markdown_file_change id
        ⟨fun p => if p = "/root/new.md" then some "/root/new.md" else none,
         fun p => if p = "/root/new.md" then some 5 else none,
         fun p => if p = "/root/new.md" then some "# New" else none⟩
        ⟨"/root", [], true⟩ "/root/new.md").2
      = [ServerMessage.Reload] ∧
    memKey
      (handle_markdown_file_change id
        ⟨fun p => if p = "/root/new.md" then some "/root/new.md" else none,
         fun p => if p = "/root/new.md" then some 5 else none,
         fun p => if p = "/root/new.md" then some "# New" else none⟩
        ⟨"/root", [], true⟩ "/root/new.md").1.tracked_files "new.md" = true := by
  constructor
  · decide
  · decide

/-- C2 amended: on a confirmed creation in directory mode (markdown path,
relative path computed, not yet tracked, add succeeds) the server emits
exactly one `Reload` message — and every `ServerMessage` is one of
`Reload`, `Pong`, `FileRenamed` or `FileRemoved`, so no `FileAdded`
message exists in the wire union. -/
theorem c2_new_file_emits_reload
    (render : String → String) (fs : FileSys) (st st' : MarkdownState)
    (path rel : String)
    (h1 : is_markdown_file path = true)
    (h2 : calculate_relative_path fs path st.base_dir = some rel)
    (h3 : memKey st.tracked_files rel = false)
    (h4 : st.is_directory_mode = true)
    (h5 : add_tracked_file render fs st path = .ok st') :
    handle_markdown_file_change render fs st path = (st', [ServerMessage.Reload]) ∧
    (∀ m : ServerMessage, m = .Reload ∨ m = .Pong ∨
      (∃ o n, m = .FileRenamed o n) ∨ (∃ nm, m = .FileRemoved nm)) := by
  constructor
  · simp only [handle_markdown_file_change, h1, h2, h3, h4, h5, Bool.not_true,
      Bool.false_eq_true, if_false, if_true]
  · intro m
    cases m with
    | Reload => left; rfl
    | Pong => right; left; rfl
    | FileRenamed o n => right; right; left; exact ⟨o, n, rfl⟩
    | FileRemoved nm => right; right; right; exact ⟨nm, rfl⟩

/-- Witness for `c2_new_file_emits_reload` at the concrete creation of
`new.md` under `/root` in directory mode. -/
theorem c2_new_file_emits_reload_witness :
    handle_markdown_file_change id
        ⟨fun p => if p = "/root/new.md" then some "/root/new.md" else none,
         fun p => if p = "/root/new.md" then some 5 else none,
         fun p => if p = "/root/new.md" then some "# New" else none⟩
        ⟨"/root", [], true⟩ "/root/new.md"
      = (MarkdownState.mk "/root"
          [("new.md", TrackedFile.mk "/root/new.md" "new.md" 5
            (markdown_to_html id "# New") (md5_compute "# New"))] true,
         [ServerMessage.Reload]) :=
  (c2_new_file_emits_reload id
    ⟨fun p => if p = "/root/new.md" then some "/root/new.md" else none,
     fun p => if p = "/root/new.md" then some 5 else none,
     fun p => if p = "/root/new.md" then some "# New" else none⟩
    ⟨"/root", [], true⟩
    (MarkdownState.mk "/root"
      [("new.md", TrackedFile.mk "/root/new.md" "new.md" 5
        (markdown_to_html id "# New") (md5_compute "# New"))] true)
    "/root/new.md" "new.md"
    (by decide) (by decide) (by decide) (by decide) rfl).1

end Mdserve

namespace Mdserve

/-- C6: a request whose canonicalized resolution escapes the canonicalized
root is rejected and never served.  Hypotheses: every tracked key resolves
under the root (the index invariant established by
`calculate_relative_path`, which only produces keys by stripping the root
prefix from a canonical path), and the request's resolution `c` lies
outside the root.  Conclusion: the response is the access-denied rejection
or a plain 404 — never a file or document body; and on the image/static
branch — the only branch that canonicalizes and reads from disk — it is
exactly `403 Access denied`.  (Document requests are served solely from
the index, whose keys all resolve inside the root, so an escaping document
request cannot name a tracked key and is answered 404 without any
filesystem access.) -/
theorem c6_escaping_path_never_served
    (render : String → String) (fs : FileSys) (st : MarkdownState) (path : String)
    (c : String)
    (hinv : ∀ k ∈ st.tracked_files.map Prod.fst, ∀ d,
      fs.canon (pathJoin st.base_dir k) = some d → isPathPrefix st.base_dir d = true)
    (hcanon : fs.canon (pathJoin st.base_dir (stripLeadingSlash path)) = some c)
    (hout : isPathPrefix st.base_dir c = false) :
    ((serve_file render fs st path).2 = .forbidden "Access denied" ∨
     (serve_file render fs st path).2 = .notFound "File not found") ∧
    (endsWithStr (stripLeadingSlash path) ".md" = false →
     endsWithStr (stripLeadingSlash path) ".markdown" = false →
     is_image_file (stripLeadingSlash path) = true →
      (serve_file render fs st path).2 = .forbidden "Access denied") := by
  have hmem : memKey st.tracked_files (stripLeadingSlash path) = false := by
    by_cases hm : memKey st.tracked_files (stripLeadingSlash path) = true
    · exfalso
      have hk : stripLeadingSlash path ∈ st.tracked_files.map Prod.fst :=
        (alistGet_isSome_iff _ _).mp (by simpa [memKey] using hm)
      have htrue := hinv _ hk c hcanon
      rw [htrue] at hout
      exact absurd hout (by simp)
    · simpa using hm
  have hstatic : serve_static_file_inner fs st (stripLeadingSlash path)
      = .forbidden "Access denied" := by
    simp only [serve_static_file_inner, hcanon, hout, Bool.not_false, if_true]
  constructor
  · by_cases h1 : (endsWithStr (stripLeadingSlash path) ".md"
        || endsWithStr (stripLeadingSlash path) ".markdown") = true
    · right
      simp only [serve_file, h1, if_true, hmem, Bool.not_false, if_true]
    · by_cases h2 : is_image_file (stripLeadingSlash path) = true
      · left
        simp only [serve_file, Bool.not_eq_true] at h1
        simp only [serve_file, h1, Bool.false_eq_true, if_false, h2, if_true]
        exact hstatic
      · right
        simp only [Bool.not_eq_true] at h1 h2
        simp only [serve_file, h1, Bool.false_eq_true, if_false, h2]
  · intro hm1 hm2 him
    have h1 : (endsWithStr (stripLeadingSlash path) ".md"
        || endsWithStr (stripLeadingSlash path) ".markdown") = false := by
      rw [hm1, hm2]
      rfl
    simp only [serve_file, h1, Bool.false_eq_true, if_false, him, if_true]
    exact hstatic

/-- Witness for `c6_escaping_path_never_served`: a symlinked `evil.png`
inside the root that canonicalizes to `/etc/secret` is answered
`403 Access denied` (while the tracked `a.md` resolves inside the root,
satisfying the index invariant). -/
theorem c6_escaping_path_never_served_witness :
    ((serve_file id
        ⟨fun p => if p = "/root/evil.png" then some "/etc/secret"
                  else if p = "/root/a.md" then some "/root/a.md" else none,
         fun _ => none, fun _ => none⟩
        ⟨"/root", [("a.md", ⟨"/root/a.md", "a.md", 0, "A", ⟨"A"⟩⟩)], true⟩
        "evil.png").2 = .forbidden "Access denied" ∨
     (serve_file id
        ⟨fun p => if p = "/root/evil.png" then some "/etc/secret"
                  else if p = "/root/a.md" then some "/root/a.md" else none,
         fun _ => none, fun _ => none⟩
        ⟨"/root", [("a.md", ⟨"/root/a.md", "a.md", 0, "A", ⟨"A"⟩⟩)], true⟩
        "evil.png").2 = .notFound "File not found") ∧
    (endsWithStr (stripLeadingSlash "evil.png") ".md" = false →
     endsWithStr (stripLeadingSlash "evil.png") ".markdown" = false →
     is_image_file (stripLeadingSlash "evil.png") = true →
      (serve_file id
        ⟨fun p => if p = "/root/evil.png" then some "/etc/secret"
                  else if p = "/root/a.md" then some "/root/a.md" else none,
         fun _ => none, fun _ => none⟩
        ⟨"/root", [("a.md", ⟨"/root/a.md", "a.md", 0, "A", ⟨"A"⟩⟩)], true⟩
        "evil.png").2 = .forbidden "Access denied") :=
  c6_escaping_path_never_served id
    ⟨fun p => if p = "/root/evil.png" then some "/etc/secret"
              else if p = "/root/a.md" then some "/root/a.md" else none,
     fun _ => none, fun _ => none⟩
    ⟨"/root", [("a.md", ⟨"/root/a.md", "a.md", 0, "A", ⟨"A"⟩⟩)], true⟩
    "evil.png" "/etc/secret"
    (by decide) (by decide) (by decide)

end Mdserve

namespace Mdserve

/-! ### Scanner lemmas -/

mutual
theorem scanEntry_error_iff :
    ∀ e : FSTree, scanEntry e = .error () ↔ hasUnreadableEntry e = true
  | .file n m c => by simp [scanEntry, hasUnreadableEntry]
  | .dir n r es => by
    cases r with
    | false => simp [scanEntry, hasUnreadableEntry]
    | true =>
      have ih := scanEntries_error_iff es
      cases h : scanEntries es with
      | ok l =>
        rw [h] at ih
        simp [scanEntry, hasUnreadableEntry, h, ih.symm]
      | error u =>
        rw [h] at ih
        cases u
        simp [scanEntry, hasUnreadableEntry, h, ← ih]

theorem scanEntries_error_iff :
    ∀ es : List FSTree, scanEntries es = .error () ↔ hasUnreadableEntries es = true
  | [] => by simp [scanEntries, hasUnreadableEntries]
  | e :: es => by
    have ih1 := scanEntry_error_iff e
    have ih2 := scanEntries_error_iff es
    cases h1 : scanEntry e with
    | ok a =>
      cases h2 : scanEntries es with
      | ok b =>
        rw [h1] at ih1; rw [h2] at ih2
        simp [scanEntries, hasUnreadableEntries, h1, h2, ← ih1, ← ih2]
      | error u =>
        cases u
        rw [h1] at ih1; rw [h2] at ih2
        simp [scanEntries, hasUnreadableEntries, h1, h2, ← ih1, ← ih2]
    | error u =>
      cases u
      rw [h1] at ih1
      simp [scanEntries, hasUnreadableEntries, h1, ← ih1]
end

mutual
theorem scanEntry_mem :
    ∀ (e : FSTree) (l : List (List String)), scanEntry e = .ok l →
      ∀ p, p ∈ l ↔ treeHasMdFile e p = true
  | .file n m c, l => by
    intro hok p
    simp only [scanEntry] at hok
    injection hok with hok
    subst hok
    by_cases hmd : is_markdown_file n = true
    · simp [treeHasMdFile, hmd, and_comm]
    · simp [treeHasMdFile, hmd]
  | .dir n r es, l => by
    intro hok p
    cases r with
    | false => simp [scanEntry] at hok
    | true =>
      cases h : scanEntries es with
      | ok b =>
        have ih := scanEntries_mem es b h
        simp only [scanEntry, if_true, h] at hok
        injection hok with hok
        subst hok
        cases p with
        | nil => simp [treeHasMdFile, List.mem_map]
        | cons x xs =>
          simp only [treeHasMdFile, List.mem_map, Bool.and_eq_true, decide_eq_true_eq]
          constructor
          · rintro ⟨q, hq, heq⟩
            injection heq with h1 h2
            subst h1
            subst h2
            exact ⟨rfl, (ih q).mp hq⟩
          · rintro ⟨hx, hxs⟩
            subst hx
            exact ⟨xs, (ih xs).mpr hxs, rfl⟩
      | error u => simp [scanEntry, h] at hok

theorem scanEntries_mem :
    ∀ (es : List FSTree) (l : List (List String)), scanEntries es = .ok l →
      ∀ p, p ∈ l ↔ treeListHasMdFile es p = true
  | [], l => by
    intro hok p
    simp [scanEntries] at hok
    subst hok
    simp [treeListHasMdFile]
  | e :: es, l => by
    intro hok p
    cases h1 : scanEntry e with
    | ok a =>
      cases h2 : scanEntries es with
      | ok b =>
        have ih1 := scanEntry_mem e a h1
        have ih2 := scanEntries_mem es b h2
        simp only [scanEntries, h1, h2] at hok
        injection hok with hok
        subst hok
        simp [treeListHasMdFile, ih1, ih2]
      | error u => simp [scanEntries, h1, h2] at hok
    | error u => simp [scanEntries, h1] at hok
end

theorem scanEntry_head (e : FSTree) (l : List (List String)) (hok : scanEntry e = .ok l) :
    ∀ p ∈ l, ∃ tl, p = entryName e :: tl := by
  intro p hp
  cases e with
  | file n m c =>
    simp only [scanEntry] at hok
    injection hok with hok
    subst hok
    by_cases hmd : is_markdown_file n = true
    · simp [hmd] at hp
      exact ⟨[], by simp [entryName, hp]⟩
    · simp [hmd] at hp
  | dir n r es =>
    cases r with
    | false => simp [scanEntry] at hok
    | true =>
      cases h : scanEntries es with
      | ok b =>
        simp only [scanEntry, h] at hok
        injection hok with hok
        subst hok
        rcases List.mem_map.mp hp with ⟨q, _, hq⟩
        exact ⟨q, hq.symm⟩
      | error u => simp [scanEntry, h] at hok

theorem scanEntries_head :
    ∀ (es : List FSTree) (l : List (List String)), scanEntries es = .ok l →
      ∀ p ∈ l, ∃ e ∈ es, ∃ tl, p = entryName e :: tl := by
  intro es
  induction es with
  | nil =>
    intro l hok p hp
    simp [scanEntries] at hok
    subst hok
    simp at hp
  | cons e es ih =>
    intro l hok p hp
    cases h1 : scanEntry e with
    | ok a =>
      cases h2 : scanEntries es with
      | ok b =>
        simp only [scanEntries, h1, h2] at hok
        injection hok with hok
        subst hok
        rcases List.mem_append.mp hp with hpa | hpb
        · rcases scanEntry_head e a h1 p hpa with ⟨tl, htl⟩
          exact ⟨e, List.mem_cons_self e es, tl, htl⟩
        · rcases ih b h2 p hpb with ⟨e', he', tl, htl⟩
          exact ⟨e', List.mem_cons_of_mem e he', tl, htl⟩
      | error u => simp [scanEntries, h1, h2] at hok
    | error u => simp [scanEntries, h1] at hok

mutual
theorem scanEntry_nodup :
    ∀ (e : FSTree) (l : List (List String)), entryWF e = true → scanEntry e = .ok l →
      l.Nodup
  | .file n m c, l => by
    intro _ hok
    simp only [scanEntry] at hok
    injection hok with hok
    subst hok
    by_cases hmd : is_markdown_file n = true
    · simp [hmd]
    · simp [hmd]
  | .dir n r es, l => by
    intro hwf hok
    cases r with
    | false => simp [scanEntry] at hok
    | true =>
      cases h : scanEntries es with
      | ok b =>
        simp only [scanEntry, h] at hok
        injection hok with hok
        subst hok
        have hb := scanEntries_nodup es b (by simpa [entryWF] using hwf) h
        exact hb.map (fun p q hpq => by injection hpq)
      | error u => simp [scanEntry, h] at hok

theorem scanEntries_nodup :
    ∀ (es : List FSTree) (l : List (List String)), entriesWF es = true →
      scanEntries es = .ok l → l.Nodup
  | [], l => by
    intro _ hok
    simp [scanEntries] at hok
    subst hok
    exact List.nodup_nil
  | e :: es, l => by
    intro hwf hok
    simp only [entriesWF, Bool.and_eq_true] at hwf
    rcases hwf with ⟨⟨hwfe, hwfes⟩, hname⟩
    cases h1 : scanEntry e with
    | ok a =>
      cases h2 : scanEntries es with
      | ok b =>
        simp only [scanEntries, h1, h2] at hok
        injection hok with hok
        subst hok
        have ha := scanEntry_nodup e a hwfe h1
        have hb := scanEntries_nodup es b hwfes h2
        refine ha.append hb ?_
        intro p hpa hpb
        rcases scanEntry_head e a h1 p hpa with ⟨tl, htl⟩
        rcases scanEntries_head es b h2 p hpb with ⟨e', he', tl', htl'⟩
        rw [htl] at htl'
        injection htl' with hn _
        have : entryName e ∈ es.map entryName := by
          rw [hn]
          exact List.mem_map_of_mem entryName he'
        simp [this] at hname
      | error u => simp [scanEntries, h1, h2] at hok
    | error u => simp [scanEntries, h1] at hok
end

end Mdserve

namespace Mdserve

/-- C3 counterexample.  The claim says that when an individual entry deeper
in the descent cannot be read, the scan does not abort but skips it and
still returns the remaining matching files.  At the concrete root
containing the readable file `a.md` and the unreadable subdirectory
`sub`, the scan aborts with the propagated IO error instead of returning
`[["a.md"]]`. -/
theorem c3_counterexample :
    scan_markdown_files_tree
        (.dir "root" true [.file "a.md" 0 "A", .dir "sub" false []])
      = .error () ∧
    scan_markdown_files_tree
        (.dir "root" true [.file "a.md" 0 "A", .dir "sub" false []])
      ≠ .ok [["a.md"]] := by
  constructor
  · rfl
  · intro h
    rw [show scan_markdown_files_tree
        (.dir "root" true [.file "a.md" 0 "A", .dir "sub" false []])
      = (.error () : Except Unit (List (List String))) from rfl] at h
    simp at h

/-- C3 amended: the scan of a root directory fails with an IO error
exactly when the root itself or some directory reachable in the descent
cannot be read — a per-entry read failure aborts the whole scan (the `?`
in `scan_markdown_files_recursive` propagates it) rather than being
skipped. -/
theorem c3_scan_aborts_on_unreadable_descent (n : String) (r : Bool) (es : List FSTree) :
    scan_markdown_files_tree (.dir n r es) = .error () ↔
      (r = false ∨ hasUnreadableEntries es = true) := by
  cases r with
  | false => simp [scan_markdown_files_tree]
  | true =>
    have ih := scanEntries_error_iff es
    cases h : scanEntries es with
    | ok l =>
      rw [h] at ih
      simp [scan_markdown_files_tree, h, ih.symm]
    | error u =>
      cases u
      rw [h] at ih
      simp [scan_markdown_files_tree, h, ← ih]

end Mdserve

namespace Mdserve

/-- C7: for every readable root (no unreadable directory anywhere in the
descent) with distinct sibling names, the scanner succeeds and returns
exactly the relative paths of files under the root whose extension
case-insensitively matches the document extension set, sorted ascending
lexicographically by full relative path, with no duplicates. -/
theorem c7_scan_exact_sorted_nodup (n : String) (es : List FSTree)
    (hwf : entriesWF es = true)
    (hread : hasUnreadableEntries es = false) :
    ∃ l, scan_markdown_files_tree (.dir n true es) = .ok l ∧
      (∀ p, p ∈ l ↔ treeListHasMdFile es p = true) ∧
      l.Pairwise (fun p q => pathLe p q = true) ∧
      l.Nodup := by
  cases h : scanEntries es with
  | error u =>
    cases u
    have herr := (scanEntries_error_iff es).mp h
    rw [hread] at herr
    exact absurd herr (by simp)
  | ok l0 =>
    refine ⟨sortListBy pathLe l0, ?_, ?_, ?_, ?_⟩
    · simp [scan_markdown_files_tree, h]
    · intro p
      rw [mem_sortListBy]
      exact scanEntries_mem es l0 h p
    · exact sortListBy_pairwise pathLe pathLe_total pathLe_trans l0
    · exact ((sortListBy_perm pathLe l0).nodup_iff).mpr (scanEntries_nodup es l0 hwf h)

/-- Witness for `c7_scan_exact_sorted_nodup` at a concrete root holding
`docs/b.md`, `a.md` and `x.txt`. -/
theorem c7_scan_exact_sorted_nodup_witness :
    entriesWF [.dir "docs" true [.file "b.md" 1 "B"],
               .file "a.md" 2 "A", .file "x.txt" 3 "T"] = true ∧
    hasUnreadableEntries [.dir "docs" true [.file "b.md" 1 "B"],
               .file "a.md" 2 "A", .file "x.txt" 3 "T"] = false ∧
    (∃ l, scan_markdown_files_tree
        (.dir "root" true [.dir "docs" true [.file "b.md" 1 "B"],
                           .file "a.md" 2 "A", .file "x.txt" 3 "T"]) = .ok l ∧
      (∀ p, p ∈ l ↔ treeListHasMdFile
          [.dir "docs" true [.file "b.md" 1 "B"],
           .file "a.md" 2 "A", .file "x.txt" 3 "T"] p = true) ∧
      l.Pairwise (fun p q => pathLe p q = true) ∧
      l.Nodup) :=
  ⟨by decide, by decide,
   c7_scan_exact_sorted_nodup "root"
     [.dir "docs" true [.file "b.md" 1 "B"], .file "a.md" 2 "A", .file "x.txt" 3 "T"]
     (by decide) (by decide)⟩

/-- C8: reconciliation is idempotent.  In directory mode, when the freshly
scanned key set equals the currently tracked key set (`HashSet` equality,
i.e. mutual containment), `rescan_directory` returns `false` ("unchanged")
and leaves the index exactly as it was; consequently a second call with no
intervening filesystem change also returns `false` on the unchanged
index. -/
theorem c8_reconcile_unchanged_idempotent
    (render : String → String) (root : FSTree) (st : MarkdownState)
    (hdir : st.is_directory_mode = true)
    (current_files : List (List String))
    (hscan : scan_markdown_files_tree root = .ok current_files)
    (heq : ((current_files.map joinPath).all
              (fun k => (st.tracked_files.map Prod.fst).contains k) &&
            (st.tracked_files.map Prod.fst).all
              (fun k => (current_files.map joinPath).contains k)) = true) :
    rescan_directory render root st = .ok (st, false) ∧
    (∀ st₁ b, rescan_directory render root st = .ok (st₁, b) →
      rescan_directory render root st₁ = .ok (st₁, false)) := by
  have h1 : rescan_directory render root st = .ok (st, false) := by
    simp only [rescan_directory, hdir, hscan, heq, if_true, Bool.true_eq_false,
      if_false]
  refine ⟨h1, ?_⟩
  intro st₁ b hcall
  rw [h1] at hcall
  injection hcall with hcall
  injection hcall with hst hb
  subst hst
  exact h1

/-- Witness for `c8_reconcile_unchanged_idempotent`: a root holding `a.md`
and an index tracking exactly `a.md`, in directory mode. -/
theorem c8_reconcile_unchanged_idempotent_witness :
    rescan_directory id (.dir "root" true [.file "a.md" 3 "A"])
        ⟨"/root", [("a.md", TrackedFile.mk "/root/a.md" "a.md" 3 "A" ⟨"A"⟩)], true⟩
      = .ok (⟨"/root", [("a.md", TrackedFile.mk "/root/a.md" "a.md" 3 "A" ⟨"A"⟩)], true⟩,
          false) :=
  (c8_reconcile_unchanged_idempotent id (.dir "root" true [.file "a.md" 3 "A"])
    ⟨"/root", [("a.md", TrackedFile.mk "/root/a.md" "a.md" 3 "A" ⟨"A"⟩)], true⟩
    (by decide) [["a.md"]] rfl (by decide)).1

end Mdserve
